import Mathlib

/-!
# Verification of the letter/word frequency counter

A shallow embedding, in Lean 4, of the core pipeline of the Go program
(`normalize` / line stitching in `processFile` / `processLine` / `inc` /
`toUnitSlice` / `parseFlags` / `run`), together with theorems checking the
natural-language specification against it.

Go strings are modelled as `List Char` (`Str`); the program is ASCII-centric
(its normalizer deletes every character outside `[a-zA-Z0-9 ]`), so rune/byte
distinctions are immaterial at every point where the code inspects content.
The concurrent counters (`xsync.Counter`, int64) are modelled as `Nat`: they
are only ever incremented, so no overflow behaviour is observable at any
realistic input size.  The concurrent maps (`xsync.Map[string, *xsync.Counter]`)
are modelled as total functions `Str → Nat` (absent key = count 0); their
`Range` iteration order is unspecified, which the reporting theorems reflect
by quantifying over an arbitrary entry list with distinct keys.
-/

namespace GoCount

/-- Go `string`, as a list of runes. -/
abbrev Str := List Char

/-- Convenience: a Lean string literal as a `Str`. -/
def strOf (s : String) : Str := s.toList

/-- Go `unicode.IsSpace`, restricted to the Latin-1 space runes
(`'\t' '\n' '\v' '\f' '\r' ' '` and U+0085, U+00A0).  The higher Unicode
White_Space runes of Go's table are elided; no code path of the program
distinguishes them from the ones listed. -/
def goIsSpace (c : Char) : Bool :=
  decide (c.toNat = 32 ∨ c.toNat = 9 ∨ c.toNat = 10 ∨ c.toNat = 11 ∨
    c.toNat = 12 ∨ c.toNat = 13 ∨ c.toNat = 133 ∨ c.toNat = 160)

/-- Go `strings.TrimSpace`: drop leading and trailing space runes. -/
def trimSpace (s : Str) : Str :=
  ((s.dropWhile goIsSpace).reverse.dropWhile goIsSpace).reverse

/-- Per-rune lowercasing, as Go `strings.ToLower` acts on the ASCII range
(`'A'..'Z' ↦ 'a'..'z'`, everything else in the ASCII range unchanged).
Non-ASCII runes with ASCII lower-case images (e.g. the Kelvin sign) are left
unchanged here; every non-ASCII rune is deleted by the normalizer's charset
filter immediately afterwards, before anything downstream can look at it. -/
def goToLowerChar (c : Char) : Char := c.toLower

/-- Go `strings.ToLower` (see `goToLowerChar`). -/
def goToLower (s : Str) : Str := s.map goToLowerChar

/-- The character class kept by `keepCharsRE = [^a-zA-Z0-9 ]+` (which is
deleted, i.e. its complement is kept). -/
def isKeepChar (c : Char) : Bool :=
  decide ((97 ≤ c.toNat ∧ c.toNat ≤ 122) ∨ (65 ≤ c.toNat ∧ c.toNat ≤ 90) ∨
    (48 ≤ c.toNat ∧ c.toNat ≤ 57) ∨ c.toNat = 32)

/-- The character class kept by `keepCharsAndAnglesRE = [^a-zA-Z0-9 <>]+`. -/
def isKeepCharOrAngle (c : Char) : Bool :=
  isKeepChar c || decide (c.toNat = 60 ∨ c.toNat = 62)

/-- ASCII alphanumeric, the `[a-zA-Z0-9]` class of `removeHTMLRE`. -/
def isAlnumChar (c : Char) : Bool :=
  decide ((97 ≤ c.toNat ∧ c.toNat ≤ 122) ∨ (65 ≤ c.toNat ∧ c.toNat ≤ 90) ∨
    (48 ≤ c.toNat ∧ c.toNat ≤ 57))

/-- Go `strings.Fields`: split into the maximal runs of non-space runes,
built here by a structural right fold (the head rune either starts a new
word, joins the following word, or is a separator). -/
def fieldsCons (c : Char) (rest : Str) (fs : List Str) : List Str :=
  match rest, fs with
  | [], _ => [[c]]
  | _ :: _, [] => [[c]]
  | r :: _, w :: ws => if goIsSpace r then [c] :: w :: ws else (c :: w) :: ws

def fields : Str → List Str
  | [] => []
  | c :: rest =>
    if goIsSpace c then fields rest else fieldsCons c rest (fields rest)

/-- One scanning step of Go `strings.ReplaceAll` for a non-empty pattern:
at each position, replace the pattern if it matches there (then resume after
the match), otherwise keep the rune.  The `fuel` argument only bounds the
recursion depth so that the definition is structural (and hence computes in
the kernel); `replaceAll` supplies `s.length`, which never runs out since
every step consumes at least one rune, and a no-match identity run is the
identity at every fuel anyway. -/
def replaceAllAux (pat rep : Str) : Nat → Str → Str
  | _, [] => []
  | 0, s => s
  | fuel + 1, c :: rest =>
    if pat ≠ [] ∧ pat.isPrefixOf (c :: rest) then
      rep ++ replaceAllAux pat rep fuel ((c :: rest).drop pat.length)
    else c :: replaceAllAux pat rep fuel rest

/-- Go `strings.ReplaceAll(s, pat, rep)`.  For an empty pattern Go inserts
`rep` at the beginning and after every rune. -/
def replaceAll (s pat rep : Str) : Str :=
  if pat = [] then rep ++ s.flatMap (fun c => c :: rep)
  else replaceAllAux pat rep s.length s

/-- The part of a `removeHTMLRE` match after `</` or `<`: a maximal non-empty
alphanumeric run, `'>'`, optional trailing space.  Returns the rest of the
string after the match. -/
def matchTagTail (t : Str) : Option Str :=
  if t.takeWhile isAlnumChar = [] then none
  else
    match t.dropWhile isAlnumChar with
    | c :: rest3 =>
      if c = '>' then some (if rest3.head? = some ' ' then rest3.tail else rest3)
      else none
    | [] => none

/-- The deterministic core of one match of `removeHTMLRE = ?</?[a-zA-Z0-9]+> ?`
after the optional leading space: `'<'`, optional `'/'`, then `matchTagTail`.
(RE2's leftmost-first greedy semantics are deterministic here: backtracking on
`/?` or on the `+` run can never succeed where the greedy choice failed.) -/
def matchTagCore (s : Str) : Option Str :=
  match s with
  | [] => none
  | c :: rest =>
    if c = '<' then
      matchTagTail (if rest.head? = some '/' then rest.tail else rest)
    else none

/-- A match of `removeHTMLRE` beginning at the current position: the leading
` ?` is greedy, and when it matched a space the `'<'` must follow it (a
backtrack to the empty option would put `'<'` against the space and fail). -/
def matchTagAt (s : Str) : Option Str :=
  match s with
  | [] => none
  | c :: rest => if c = ' ' then matchTagCore rest else matchTagCore (c :: rest)

theorem matchTagTail_suffix {t r : Str} (h : matchTagTail t = some r) : r <:+ t := by
  unfold matchTagTail at h
  split at h
  · exact Option.noConfusion h
  · rcases hdw : t.dropWhile isAlnumChar with _ | ⟨c, rest3⟩
    · rw [hdw] at h; exact Option.noConfusion h
    · rw [hdw] at h
      simp only at h
      split at h
      · simp only [Option.some.injEq] at h
        have h4 : r <:+ rest3 := by
          rw [← h]; split
          · exact List.tail_suffix rest3
          · exact List.suffix_rfl
        have h3 : rest3 <:+ c :: rest3 := List.suffix_cons _ _
        have h2 : c :: rest3 <:+ t := hdw ▸ List.dropWhile_suffix _
        exact (h4.trans h3).trans h2
      · exact Option.noConfusion h

theorem matchTagCore_suffix {s r : Str} (h : matchTagCore s = some r) :
    r <:+ s.tail := by
  match s with
  | [] => simp [matchTagCore] at h
  | c :: rest =>
    simp only [matchTagCore] at h
    split at h
    · have h1 := matchTagTail_suffix h
      have h2 : (if rest.head? = some '/' then rest.tail else rest) <:+ rest := by
        split
        · exact List.tail_suffix rest
        · exact List.suffix_rfl
      exact h1.trans h2
    · exact Option.noConfusion h

theorem matchTagAt_suffix {s r : Str} (h : matchTagAt s = some r) :
    r <:+ s.tail := by
  match s with
  | [] => simp [matchTagAt] at h
  | c :: rest =>
    simp only [matchTagAt] at h
    split at h
    · exact (matchTagCore_suffix h).trans (List.tail_suffix rest)
    · exact matchTagCore_suffix h

/-- The scan of `removeHTMLRE.ReplaceAllString(s, "")`: left to right, deleting
each leftmost match and resuming after it.  As in `replaceAllAux`, `fuel` only
makes the recursion structural; `removeHTMLTags` supplies `s.length`, which
suffices because a match consumes at least one rune past the current head
(`matchTagAt_suffix`). -/
def removeHTMLTagsAux : Nat → Str → Str
  | _, [] => []
  | 0, s => s
  | fuel + 1, c :: rest =>
    match matchTagAt (c :: rest) with
    | some rest2 => removeHTMLTagsAux fuel rest2
    | none => c :: removeHTMLTagsAux fuel rest

/-- The call `removeHTMLRE.ReplaceAllString(s, "")` (see `removeHTMLTagsAux`). -/
def removeHTMLTags (s : Str) : Str := removeHTMLTagsAux s.length s

/-- The function `normalize` (lowers and strips most non-alpha-numeric characters): trim,
detect the dash-broken-line flag, lowercase, trim again, optionally strip
HTML-ish tags, delete everything outside `[a-zA-Z0-9 ]`, split into fields.
In the source the `broken` condition is
`len(ln) > 1 && strings.HasSuffix(ln, "-") && string(ln[len(ln)-2]) != ""`;
its third conjunct converts a single byte to a string, which is never empty,
so it is identically `true` and is dropped here. -/
def normalize (ln : Str) (removeHTML : Bool) : List Str × Bool :=
  let ln1 := trimSpace ln
  if ln1.length = 0 then ([], false)
  else
    let broken := decide (1 < ln1.length) && decide (ln1.getLast? = some '-')
    let ln2 := trimSpace (goToLower ln1)
    let ln3 :=
      if removeHTML then removeHTMLTags (ln2.filter isKeepCharOrAngle) else ln2
    let ln4 := ln3.filter isKeepChar
    (fields ln4, broken)

/-- The `stats` struct: four frequency views and four totals.  Counters
(`xsync.Counter`) are `Nat`s, concurrent maps are total functions with
default 0 (see the header comment). -/
structure stats where
  count : Nat
  universal : Str → Nat
  countSwapped : Nat
  swapped : Str → Nat
  countRemoved : Nat
  removed : Str → Nat
  countBoth : Nat
  both : Str → Nat

/-- The constructor `makeStats`: all counters at zero, all maps empty. -/
def makeStats : stats :=
  ⟨0, fun _ => 0, 0, fun _ => 0, 0, fun _ => 0, 0, fun _ => 0⟩

/-- The helper `incX`: bump key `k` in map `m`, doing nothing for an empty key. -/
def incX (m : Str → Nat) (k : Str) : Str → Nat :=
  if k = [] then m else fun k2 => if k2 = k then m k2 + 1 else m k2

/-- The aggregator `inc` mutates the stats maps to increment all values. -/
def inc (s : stats) (raw swapped : Str) (removed : Bool) : stats :=
  let s1 :=
    if raw.length > 0 then
      let sa := { s with count := s.count + 1, universal := incX s.universal raw }
      if !removed then { sa with removed := incX sa.removed raw }
      else { sa with countRemoved := sa.countRemoved + 1 }
    else s
  if swapped.length > 0 then
    let s2 := { s1 with countSwapped := s1.countSwapped + 1,
                        swapped := incX s1.swapped swapped }
    if !removed then { s2 with countBoth := s2.countBoth + 1,
                               both := incX s2.both swapped }
    else s2
  else s1

/-- The `nGramSwap` pair.  The source fields are named `from`/`to`; `from` is a Lean
keyword, hence the `S` suffix. -/
structure nGramSwap where
  fromS : Str
  toS : Str
deriving DecidableEq

/-- The `handler` struct (the `ctx` field and logging are elided). -/
structure handler where
  removeWords : List Str
  swapNGrams : List nGramSwap
  removeHTML : Bool
  words : stats
  letters : stats

/-- The swap loop of `processLine`:
`swapped := word; for _, swap := range swaps { swapped = ReplaceAll(word, swap.from, swap.to) }`.
Note that each iteration replaces against `word`, not against the previous
`swapped` (the accumulator is ignored), exactly as in the source. -/
def swapWord (swaps : List nGramSwap) (word : Str) : Str :=
  swaps.foldl (fun _swapped swap => replaceAll word swap.fromS swap.toS) word

/-- The body of the `for _, word := range ln` loop of `processLine`: compute
the swapped form and the removal flag, count the word (words dimension), then
count each raw character and each swapped character (letters dimension). -/
def processWord (h : handler) (word : Str) : handler :=
  let swapped := swapWord h.swapNGrams word
  let remove := h.removeWords.contains word
  let h1 := { h with words := inc h.words word swapped remove }
  let h2 := { h1 with
    letters := word.foldl (fun st c => inc st [c] [] remove) h1.letters }
  { h2 with
    letters := swapped.foldl (fun st c => inc st [] [c] remove) h2.letters }

/-- The function `processLine`: the word loop, folded over the line tokens. -/
def processLine (h : handler) (ln : List Str) : handler :=
  ln.foldl processWord h

/-- The scanner loop of `processFile`, generic in what consuming a line means
(`emit` replaces the `h.processLine(ctx, ...)` calls; instantiating `σ` with
`handler`/`processLine` gives the program, instantiating it with an
accumulator records the emitted lines).  State: `prev`/`curr` token lists and
their broken flags; remaining input lines.  After the loop the source makes
"one last call to catch the final line": `h.processLine(ctx, curr)`. -/
def processFileLoop {σ : Type} (removeHTML : Bool) (emit : σ → List Str → σ) :
    σ → List Str → Bool → List Str → Bool → List Str → σ
  | s, _prev, _prevBroken, curr, _currBroken, [] => emit s curr
  | s, prev, prevBroken, curr, currBroken, lnText :: rest =>
    let sc : σ × List Str :=
      if prev ≠ [] then
        if prevBroken ∧ curr ≠ [] then
          let prev2 := prev.dropLast ++ [prev.getLastD [] ++ curr.headD []]
          (emit s prev2, curr.tail)
        else (emit s prev, curr)
      else (s, curr)
    let nc := normalize lnText removeHTML
    processFileLoop removeHTML emit sc.1 sc.2 currBroken nc.1 nc.2 rest

/-- The function `processFile` on the lines scanned from one file. -/
def processFile (h : handler) (lines : List Str) : handler :=
  processFileLoop h.removeHTML processLine h [] false [] false lines

/-- The sequence of lines (token lists) that `processFile` hands to
`processLine`, in order: `processFileLoop` instantiated with a recording
emitter instead of `processLine`. -/
def processFileEmits (removeHTML : Bool) (lines : List Str) : List (List Str) :=
  processFileLoop removeHTML (fun acc ln => acc ++ [ln]) [] [] false [] false lines

/-- Go `strings.Split(s, ",")` for the single-rune separator. -/
def splitOnComma (s : Str) : List Str :=
  match s with
  | [] => [[]]
  | c :: rest =>
    if c = ',' then [] :: splitOnComma rest
    else
      match splitOnComma rest with
      | [] => [[c]]
      | t :: ts => (c :: t) :: ts

/-- The error message of a malformed swap spec (the source attaches the
offending input as structured context; only the message is modelled). -/
def swapErrMsg : String := "improperly formed swapNGram: only one ',' expected"

/-- One iteration of the swap-parsing loop in `parseFlags`: split the
lowercased spec on `','` and demand exactly two parts. -/
def parseSwap (spec : Str) : Except String nGramSwap :=
  match splitOnComma (goToLower spec) with
  | [a, b] => .ok ⟨a, b⟩
  | _ => .error swapErrMsg

/-- The function `parseFlags` (the swap-spec part): parse each spec in order,
stopping at
the first malformed one.  The remove-word and removeHTML flags are passed
through unvalidated by the source and are carried separately in `run`. -/
def parseFlags (swapSpecs : List Str) : Except String (List nGramSwap) :=
  swapSpecs.foldlM (fun acc spec => (parseSwap spec).map (fun sw => acc ++ [sw])) []

/-- An input file for `run`: its path and its scanned lines.  `os.Stat` and
`os.Open` are modelled as always succeeding (I/O failure is outside the
embedding); the `.txt`-suffix precheck is kept. -/
structure goFile where
  name : Str
  lines : List Str

/-- The entry point `run`: parse flags; on success precheck every argument for the `.txt`
suffix, then process the files in order and return the two stats bundles
(which `run` then prints).  A flag error aborts before any precheck or file
processing. -/
def run (swapSpecs removeSpecs : List Str) (removeHTML : Bool)
    (files : List goFile) : Except String (stats × stats) :=
  match parseFlags swapSpecs with
  | .error e => .error e
  | .ok swaps =>
    if files.all (fun f => (strOf ".txt").isSuffixOf f.name) then
      let h0 : handler := ⟨removeSpecs, swaps, removeHTML, makeStats, makeStats⟩
      let h := files.foldl (fun h f => processFile h f.lines) h0
      .ok (h.words, h.letters)
    else .error "must be .txt"

/-- The `unit` struct of the reporter: a key and its count (`int` in Go). -/
structure unit where
  v : Str
  n : Int
deriving DecidableEq

/-- Go `strings.Compare` (three-way lexicographic comparison; byte order and
code-point order agree under UTF-8). -/
def strCmp3 : Str → Str → Int
  | [], [] => 0
  | [], _ :: _ => -1
  | _ :: _, [] => 1
  | a :: as, b :: bs => if a < b then -1 else if b < a then 1 else strCmp3 as bs

/-- The comparator passed to `slices.SortFunc` in `toUnitSlice`:
`diff := b.n - a.n; if diff != 0 { return diff }; return strings.Compare(a.v, b.v)`. -/
def unitsCmp (a b : unit) : Int :=
  if b.n - a.n ≠ 0 then b.n - a.n else strCmp3 a.v b.v

/-- The (non-strict) order induced by the comparator. -/
def unitsLE (a b : unit) : Prop := unitsCmp a b ≤ 0

instance : DecidableRel unitsLE := fun a b => Int.decLe (unitsCmp a b) 0

/-- The function `toUnitSlice`: collect the map entries and sort them with
`unitsCmp`.
The `xsync.Map.Range` iteration order is unspecified, so the entry list is
taken as an argument (the theorems quantify over it); `slices.SortFunc` is
modelled as a sort with respect to the same comparator — on entry lists with
pairwise-distinct keys, as produced by a map, every comparison sort with this
comparator yields this same result. -/
def toUnitSlice (entries : List unit) : List unit :=
  List.insertionSort unitsLE entries

/-- The top-N truncation applied by `print` to one ranked list:
`if top > 0 { if len(u) > top { u = u[:top] } }`. -/
def truncTop (top : Nat) (l : List unit) : List unit :=
  if 0 < top ∧ top < l.length then l.take top else l

/-- The arguments of one `inc` call (used to state invariants over arbitrary
sequences of increments). -/
structure IncCall where
  raw : Str
  swapped : Str
  removed : Bool

/-- Apply a sequence of `inc` calls to a stats bundle. -/
def applyCalls (s : stats) (calls : List IncCall) : stats :=
  calls.foldl (fun s c => inc s c.raw c.swapped c.removed) s

/-! ## Helper lemmas -/

theorem toNat_ofNat_of_valid {n : Nat} (h : n < 55296) : (Char.ofNat n).toNat = n := by
  have hv : n.isValidChar := Or.inl h
  simp [Char.ofNat, hv, Char.ofNatAux, Char.toNat, UInt32.toNat, BitVec.toNat_ofNatLt]

/-- ASCII lowercasing never produces an upper-case ASCII letter. -/
theorem toLowerChar_not_upper (d : Char) :
    ¬(65 ≤ (goToLowerChar d).toNat ∧ (goToLowerChar d).toNat ≤ 90) := by
  unfold goToLowerChar Char.toLower
  simp only
  split
  · next h =>
    have : (Char.ofNat (d.toNat + 32)).toNat = d.toNat + 32 :=
      toNat_ofNat_of_valid (by omega)
    omega
  · next h => omega

/-- An `inc` with an empty swapped unit does not touch the swapped side. -/
theorem inc_swapped_frame (s : stats) (raw : Str) (rm : Bool) :
    (inc s raw [] rm).countSwapped = s.countSwapped ∧
    (inc s raw [] rm).swapped = s.swapped ∧
    (inc s raw [] rm).countBoth = s.countBoth ∧
    (inc s raw [] rm).both = s.both := by
  unfold inc
  split_ifs <;> simp_all

/-- An `inc` with an empty raw unit does not touch the raw side. -/
theorem inc_raw_frame (s : stats) (sw : Str) (rm : Bool) :
    (inc s [] sw rm).count = s.count ∧
    (inc s [] sw rm).universal = s.universal ∧
    (inc s [] sw rm).countRemoved = s.countRemoved ∧
    (inc s [] sw rm).removed = s.removed := by
  unfold inc
  split_ifs <;> simp_all

/-- A raw-only single-character `inc` bumps the universal total by one. -/
theorem inc_raw_count_one (st : stats) (c : Char) (rm : Bool) :
    (inc st [c] [] rm).count = st.count + 1 ∧
    (inc st [c] [] rm).countSwapped = st.countSwapped := by
  unfold inc
  split_ifs <;> simp_all

/-- A swapped-only single-character `inc` bumps the swapped total by one. -/
theorem inc_swapped_count_one (st : stats) (c : Char) (rm : Bool) :
    (inc st [] [c] rm).countSwapped = st.countSwapped + 1 ∧
    (inc st [] [c] rm).count = st.count := by
  unfold inc
  split_ifs <;> simp_all

/-- One `inc` step preserves `countBoth ≤ countSwapped`. -/
theorem inc_both_le_swapped_step (s : stats) (raw sw : Str) (rm : Bool)
    (hle : s.countBoth ≤ s.countSwapped) :
    (inc s raw sw rm).countBoth ≤ (inc s raw sw rm).countSwapped := by
  unfold inc
  split_ifs <;> simp_all <;> omega

/-! ## C5: `inc` frame conditions -/

/-- C5: an `inc` call with an empty `swappedUnit` leaves the swapped view, the
both view and their totals unchanged, and an `inc` call with an empty
`rawUnit` leaves the universal view, the removed view, the universal total
and the removed-total unchanged; consequently, in the letters dimension,
folding `inc` over the raw characters of a word bumps only the universal
total (by exactly the word's length) and folding `inc` over the swapped
characters bumps only the swapped total (by exactly the swapped form's
length), so each character is counted exactly once per stream and never
double-counted. -/
theorem inc_frame_effects :
    (∀ (s : stats) (raw : Str) (rm : Bool),
      (inc s raw [] rm).countSwapped = s.countSwapped ∧
      (inc s raw [] rm).swapped = s.swapped ∧
      (inc s raw [] rm).countBoth = s.countBoth ∧
      (inc s raw [] rm).both = s.both) ∧
    (∀ (s : stats) (sw : Str) (rm : Bool),
      (inc s [] sw rm).count = s.count ∧
      (inc s [] sw rm).universal = s.universal ∧
      (inc s [] sw rm).countRemoved = s.countRemoved ∧
      (inc s [] sw rm).removed = s.removed) ∧
    (∀ (st : stats) (word : Str) (rm : Bool),
      (word.foldl (fun s c => inc s [c] [] rm) st).count = st.count + word.length ∧
      (word.foldl (fun s c => inc s [c] [] rm) st).countSwapped = st.countSwapped) ∧
    (∀ (st : stats) (word : Str) (rm : Bool),
      (word.foldl (fun s c => inc s [] [c] rm) st).countSwapped
        = st.countSwapped + word.length ∧
      (word.foldl (fun s c => inc s [] [c] rm) st).count = st.count) := by
  refine ⟨inc_swapped_frame, inc_raw_frame, ?_, ?_⟩
  · intro st word rm
    induction word generalizing st with
    | nil => simp
    | cons c cs ih =>
      have hstep := inc_raw_count_one st c rm
      have := ih (inc st [c] [] rm)
      simp only [List.foldl_cons, List.length_cons]
      exact ⟨by rw [this.1, hstep.1]; omega, by rw [this.2, hstep.2]⟩
  · intro st word rm
    induction word generalizing st with
    | nil => simp
    | cons c cs ih =>
      have hstep := inc_swapped_count_one st c rm
      have := ih (inc st [] [c] rm)
      simp only [List.foldl_cons, List.length_cons]
      exact ⟨by rw [this.1, hstep.1]; omega, by rw [this.2, hstep.2]⟩

/-! ## C6: both-total never exceeds swapped-total -/

/-- C6: `countBoth ≤ countSwapped` holds in the initial stats, is preserved
by every single `inc` call (the both total is only incremented together with
the swapped total, in the same call), and therefore holds in every state
reachable from `makeStats` by any sequence of increments. -/
theorem countBoth_le_countSwapped_invariant :
    (makeStats.countBoth ≤ makeStats.countSwapped) ∧
    (∀ (s : stats) (raw sw : Str) (rm : Bool),
      s.countBoth ≤ s.countSwapped →
      (inc s raw sw rm).countBoth ≤ (inc s raw sw rm).countSwapped) ∧
    (∀ calls : List IncCall,
      (applyCalls makeStats calls).countBoth ≤
        (applyCalls makeStats calls).countSwapped) := by
  refine ⟨le_refl 0, inc_both_le_swapped_step, ?_⟩
  intro calls
  suffices h : ∀ (s : stats), s.countBoth ≤ s.countSwapped →
      (applyCalls s calls).countBoth ≤ (applyCalls s calls).countSwapped from
    h makeStats (le_refl 0)
  induction calls with
  | nil => intro s hs; exact hs
  | cons c cs ih =>
    intro s hs
    exact ih _ (inc_both_le_swapped_step s c.raw c.swapped c.removed hs)

/-- Witness for `countBoth_le_countSwapped_invariant`: the hypothesis of its
preservation conjunct discharged at a concrete state. -/
theorem countBoth_le_countSwapped_invariant_witness :
    makeStats.countBoth ≤ makeStats.countSwapped ∧
    (inc makeStats (strOf "the") (strOf "xe") false).countBoth ≤
      (inc makeStats (strOf "the") (strOf "xe") false).countSwapped :=
  ⟨le_refl 0,
    countBoth_le_countSwapped_invariant.2.1 makeStats (strOf "the") (strOf "xe") false
      (le_refl 0)⟩

/-! ## C2: effects of one increment on a removed token -/

/-- C2: for a token in the RemoveSet (so `processLine` passes `removed =
removeWords.contains raw = true`), one `inc` call bumps the universal total
and the universal view at the token by exactly one, leaves the removed view
untouched, bumps the removed-total by exactly one, bumps the swapped total
and the swapped view at the swapped form by exactly one when the swapped
form is non-empty (and leaves them unchanged when it is empty), and leaves
the both view and the both total unchanged. -/
theorem inc_removed_token_effects (s : stats) (raw sw : Str)
    (removeWords : List Str) (hmem : removeWords.contains raw = true)
    (hraw : raw ≠ []) :
    (inc s raw sw (removeWords.contains raw)).count = s.count + 1 ∧
    (inc s raw sw (removeWords.contains raw)).universal raw
      = s.universal raw + 1 ∧
    (∀ k, k ≠ raw →
      (inc s raw sw (removeWords.contains raw)).universal k = s.universal k) ∧
    (inc s raw sw (removeWords.contains raw)).removed = s.removed ∧
    (inc s raw sw (removeWords.contains raw)).countRemoved
      = s.countRemoved + 1 ∧
    (sw ≠ [] →
      (inc s raw sw (removeWords.contains raw)).countSwapped
        = s.countSwapped + 1 ∧
      (inc s raw sw (removeWords.contains raw)).swapped sw
        = s.swapped sw + 1 ∧
      (∀ k, k ≠ sw →
        (inc s raw sw (removeWords.contains raw)).swapped k = s.swapped k)) ∧
    (sw = [] →
      (inc s raw sw (removeWords.contains raw)).countSwapped = s.countSwapped ∧
      (inc s raw sw (removeWords.contains raw)).swapped = s.swapped) ∧
    (inc s raw sw (removeWords.contains raw)).both = s.both ∧
    (inc s raw sw (removeWords.contains raw)).countBoth = s.countBoth := by
  rw [hmem]
  have hlen : 0 < raw.length := List.length_pos.mpr hraw
  refine ⟨?_, ?_, ?_, ?_, ?_, ?_, ?_, ?_, ?_⟩
  · unfold inc; split_ifs <;> simp_all
  · unfold inc incX; split_ifs <;> simp_all
  · intro k hk; unfold inc incX; split_ifs <;> simp_all
  · unfold inc; split_ifs <;> simp_all
  · unfold inc; split_ifs <;> simp_all
  · intro hsw
    have hslen : 0 < sw.length := List.length_pos.mpr hsw
    refine ⟨?_, ?_, ?_⟩
    · unfold inc; split_ifs <;> simp_all
    · unfold inc incX; split_ifs <;> simp_all
    · intro k hk; unfold inc incX; split_ifs <;> simp_all
  · intro hsw; subst hsw
    unfold inc; split_ifs <;> simp_all
  · unfold inc; split_ifs <;> simp_all
  · unfold inc; split_ifs <;> simp_all

/-- Witness for `inc_removed_token_effects`: with swap `th → x` and `"the"`
in the RemoveSet, the swapped view receives `"xe"` but the both view does
not. -/
theorem inc_removed_token_effects_witness :
    ([strOf "the"].contains (strOf "the") = true) ∧ (strOf "the" ≠ []) ∧
    ((inc makeStats (strOf "the") (strOf "xe")
        ([strOf "the"].contains (strOf "the"))).swapped (strOf "xe")
      = makeStats.swapped (strOf "xe") + 1 ∧
     (inc makeStats (strOf "the") (strOf "xe")
        ([strOf "the"].contains (strOf "the"))).both = makeStats.both ∧
     (inc makeStats (strOf "the") (strOf "xe")
        ([strOf "the"].contains (strOf "the"))).countRemoved
      = makeStats.countRemoved + 1) :=
  ⟨by decide, by decide,
    by
      have h := inc_removed_token_effects makeStats (strOf "the") (strOf "xe")
        [strOf "the"] (by decide) (by decide)
      exact ⟨(h.2.2.2.2.2.1 (by decide)).2.1, h.2.2.2.2.2.2.2.1, h.2.2.2.2.1⟩⟩

/-! ## C3: each swap replaces against the original token -/

/-- A left fold whose step ignores the accumulator returns the function of
the last element. -/
theorem foldl_ignore_acc {α β : Type} (g : α → β) :
    ∀ (l : List α) (h : l ≠ []) (init : β),
    l.foldl (fun _ x => g x) init = g (l.getLast h)
  | [x], _, _ => by simp
  | x :: y :: l, _, init => by
    rw [List.foldl_cons, foldl_ignore_acc g (y :: l) (by simp) (g x)]
    rfl

/-- A non-empty pattern that does not occur in `s` leaves `s` unchanged, at
every fuel. -/
theorem replaceAllAux_no_occur (pat rep : Str) :
    ∀ (fuel : Nat) (s : Str), ¬(pat <:+: s) → replaceAllAux pat rep fuel s = s := by
  intro fuel
  induction fuel with
  | zero => intro s _; cases s <;> rfl
  | succ n ih =>
    intro s hs
    cases s with
    | nil => rfl
    | cons c rest =>
      rw [replaceAllAux, if_neg, ih rest (fun hinf => hs (List.infix_cons hinf))]
      rintro ⟨-, hpre⟩
      exact hs (List.isPrefixOf_iff_prefix.mp hpre).isInfix

/-- A pattern that does not occur in `s` leaves `s` unchanged. -/
theorem replaceAll_no_occur (s pat rep : Str) (hs : ¬(pat <:+: s)) :
    replaceAll s pat rep = s := by
  unfold replaceAll
  split
  · next hp => exact absurd (hp ▸ List.nil_infix) hs
  · next hp => exact replaceAllAux_no_occur pat rep _ s hs

/-- C3: the swap loop applies every configured swap against the *original*
token (each iteration overwrites the previous), so for a non-empty swap list
the result is the replace-all of the last swap applied to the original
token; in particular it is the original token whenever no swap pattern
occurs in it.  Concretely, the single rule `th → x` maps `"the"` to `"xe"`,
and adding a later rule `he → y` yields `"ty"` (the `th → x` rewrite is
discarded, not composed). -/
theorem swapWord_resets_to_original (word : Str) (swaps : List nGramSwap)
    (h : swaps ≠ []) :
    swapWord swaps word
      = replaceAll word (swaps.getLast h).fromS (swaps.getLast h).toS ∧
    ((∀ sw ∈ swaps, ¬(sw.fromS <:+: word)) → swapWord swaps word = word) ∧
    swapWord [⟨strOf "th", strOf "x"⟩] (strOf "the") = strOf "xe" ∧
    swapWord [⟨strOf "th", strOf "x"⟩, ⟨strOf "he", strOf "y"⟩] (strOf "the")
      = strOf "ty" := by
  refine ⟨?_, ?_, by decide, by decide⟩
  · unfold swapWord
    exact foldl_ignore_acc (fun sw => replaceAll word sw.fromS sw.toS) swaps h word
  · intro hall
    have hlast := hall (swaps.getLast h) (List.getLast_mem h)
    unfold swapWord
    rw [foldl_ignore_acc (fun sw => replaceAll word sw.fromS sw.toS) swaps h word]
    exact replaceAll_no_occur _ _ _ hlast

/-- Witness for `swapWord_resets_to_original`, at the single rule `th → x`
and the token `"the"`. -/
theorem swapWord_resets_to_original_witness :
    (([⟨strOf "th", strOf "x"⟩] : List nGramSwap) ≠ []) ∧
    swapWord [⟨strOf "th", strOf "x"⟩] (strOf "the")
      = replaceAll (strOf "the")
          (([⟨strOf "th", strOf "x"⟩] : List nGramSwap).getLast (by decide)).fromS
          (([⟨strOf "th", strOf "x"⟩] : List nGramSwap).getLast (by decide)).toS :=
  ⟨by decide,
    (swapWord_resets_to_original (strOf "the") [⟨strOf "th", strOf "x"⟩]
      (by decide)).1⟩

/-! ## C4: all four totals agree under an empty configuration -/

/-- The step `processWord` only rewrites the `words` and `letters` stats. -/
theorem processWord_config_frame (h : handler) (w : Str) :
    (processWord h w).removeWords = h.removeWords ∧
    (processWord h w).swapNGrams = h.swapNGrams ∧
    (processWord h w).words
      = inc h.words w (swapWord h.swapNGrams w) (h.removeWords.contains w) :=
  ⟨rfl, rfl, rfl⟩

/-- With no remove words and no swaps, a non-empty token bumps all of
universal, swapped and both totals by one and leaves the removed-total. -/
theorem inc_full_nonremoved (s : stats) (w : Str) (hw : w ≠ []) :
    (inc s w w false).count = s.count + 1 ∧
    (inc s w w false).countSwapped = s.countSwapped + 1 ∧
    (inc s w w false).countBoth = s.countBoth + 1 ∧
    (inc s w w false).countRemoved = s.countRemoved := by
  have hl : 0 < w.length := List.length_pos.mpr hw
  unfold inc
  split_ifs <;> simp_all

theorem processLine_totals_aux (tokens : List Str) :
    ∀ hd : handler, (∀ t ∈ tokens, t ≠ []) →
    hd.removeWords = [] → hd.swapNGrams = [] →
    (processLine hd tokens).words.count = hd.words.count + tokens.length ∧
    (processLine hd tokens).words.countSwapped
      = hd.words.countSwapped + tokens.length ∧
    (processLine hd tokens).words.countBoth
      = hd.words.countBoth + tokens.length ∧
    (processLine hd tokens).words.countRemoved = hd.words.countRemoved := by
  induction tokens with
  | nil => intro hd _ _ _; simp [processLine]
  | cons t ts ih =>
    intro hd hne hrw hsw
    have hstep : processLine hd (t :: ts) = processLine (processWord hd t) ts := rfl
    have hw : t ≠ [] := hne t (by simp)
    have hwords : (processWord hd t).words = inc hd.words t t false := by
      rw [(processWord_config_frame hd t).2.2, hsw, hrw]
      rfl
    have hrec := ih (processWord hd t) (fun u hu => hne u (by simp [hu]))
      ((processWord_config_frame hd t).1.trans hrw)
      ((processWord_config_frame hd t).2.1.trans hsw)
    have hone := inc_full_nonremoved hd.words t hw
    rw [hstep]
    refine ⟨?_, ?_, ?_, ?_⟩
    · rw [hrec.1, hwords, hone.1]; simp; omega
    · rw [hrec.2.1, hwords, hone.2.1]; simp; omega
    · rw [hrec.2.2.1, hwords, hone.2.2.1]; simp; omega
    · rw [hrec.2.2.2, hwords, hone.2.2.2]

/-- C4: processing any sequence of non-empty tokens with an empty RemoveSet
and an empty swap list makes all four totals of the words dimension equal to
the number of tokens — the universal total, the reported removed-view total
(universal minus removed-total), the swapped total and the both total — with
the removed-total itself zero. -/
theorem totals_equal_with_empty_config (tokens : List Str)
    (h : ∀ t ∈ tokens, t ≠ []) :
    (processLine ⟨[], [], false, makeStats, makeStats⟩ tokens).words.count
      = tokens.length ∧
    (processLine ⟨[], [], false, makeStats, makeStats⟩ tokens).words.count
      - (processLine ⟨[], [], false, makeStats, makeStats⟩ tokens).words.countRemoved
      = tokens.length ∧
    (processLine ⟨[], [], false, makeStats, makeStats⟩ tokens).words.countSwapped
      = tokens.length ∧
    (processLine ⟨[], [], false, makeStats, makeStats⟩ tokens).words.countBoth
      = tokens.length ∧
    (processLine ⟨[], [], false, makeStats, makeStats⟩ tokens).words.countRemoved
      = 0 := by
  have := processLine_totals_aux tokens ⟨[], [], false, makeStats, makeStats⟩ h rfl rfl
  simp only [makeStats] at this ⊢
  refine ⟨?_, ?_, ?_, ?_, ?_⟩ <;> omega

/-- Witness for `totals_equal_with_empty_config` at two concrete tokens. -/
theorem totals_equal_with_empty_config_witness :
    (∀ t ∈ [strOf "won", strOf "der"], t ≠ []) ∧
    ((processLine ⟨[], [], false, makeStats, makeStats⟩
        [strOf "won", strOf "der"]).words.count = 2 ∧
     (processLine ⟨[], [], false, makeStats, makeStats⟩
        [strOf "won", strOf "der"]).words.countSwapped = 2 ∧
     (processLine ⟨[], [], false, makeStats, makeStats⟩
        [strOf "won", strOf "der"]).words.countBoth = 2 ∧
     (processLine ⟨[], [], false, makeStats, makeStats⟩
        [strOf "won", strOf "der"]).words.countRemoved = 0) :=
  ⟨by decide,
    by
      have h := totals_equal_with_empty_config [strOf "won", strOf "der"] (by decide)
      exact ⟨h.1, h.2.2.1, h.2.2.2.1, h.2.2.2.2⟩⟩

/-! ## C7: the broken-line flag -/

/-- C7: `normalize` reports `broken = true` exactly when the
whitespace-trimmed line is longer than one character and its last character
is a literal hyphen (the source's third conjunct, comparing a one-byte
string against `""`, is identically true); in particular
`normalize("co-")` yields tokens `["co"]` with `broken = true` and
`normalize("-")` yields no tokens with `broken = false`. -/
theorem normalize_broken_iff (ln : Str) (mode : Bool) :
    ((normalize ln mode).2 = true ↔
      1 < (trimSpace ln).length ∧ (trimSpace ln).getLast? = some '-') ∧
    normalize (strOf "co-") false = ([strOf "co"], true) ∧
    normalize (strOf "-") false = ([], false) := by
  refine ⟨?_, by decide, by decide⟩
  unfold normalize
  by_cases h0 : (trimSpace ln).length = 0
  · simp [h0]
  · simp [h0]

/-! ## C1: the line stitcher drops the second-to-last line -/

/-- C1 (code bug): after the scanner loop, `processFile` flushes only `curr`
(the last line read) while `prev` (the second-to-last line, still pending)
is silently dropped — so for the two-line file `"Won-"` / `"der land"` no
stitching ever happens and the emitted token sequence is `["der", "land"]`,
not `["wonder", "land"]` as the specification requires; with a third line
`"extra"` the stitch does fire (`"wonder"` is emitted) but the pending
`["land"]` line is then dropped.  The stats of the actual run of the
two-line file show `"won"` was never counted. -/
theorem processFile_drops_second_to_last_line :
    processFileEmits false [strOf "Won-", strOf "der land"]
      = [[strOf "der", strOf "land"]] ∧
    (processFileEmits false [strOf "Won-", strOf "der land"]).flatten
      ≠ [strOf "wonder", strOf "land"] ∧
    processFileEmits false [strOf "Won-", strOf "der land", strOf "extra"]
      = [[strOf "wonder"], [strOf "extra"]] ∧
    (processFile ⟨[], [], false, makeStats, makeStats⟩
        [strOf "Won-", strOf "der land"]).words.universal (strOf "won") = 0 ∧
    (processFile ⟨[], [], false, makeStats, makeStats⟩
        [strOf "Won-", strOf "der land"]).words.universal (strOf "der") = 1 :=
  ⟨by decide, by decide, by decide, by decide, by decide⟩

/-! ## C9: swap-spec validation and early abort -/

theorem splitOnComma_ne_nil (s : Str) : splitOnComma s ≠ [] := by
  induction s with
  | nil => simp [splitOnComma]
  | cons c rest ih =>
    unfold splitOnComma
    split
    · simp
    · split
      · simp
      · simp

/-- Splitting on `','` yields one part more than the number of commas. -/
theorem splitOnComma_length (s : Str) :
    (splitOnComma s).length = s.count ',' + 1 := by
  induction s with
  | nil => simp [splitOnComma]
  | cons c rest ih =>
    unfold splitOnComma
    rcases eq_or_ne c ',' with hc | hc
    · subst hc
      simp [List.count_cons, ih]
    · rw [if_neg hc]
      rcases h : splitOnComma rest with _ | ⟨t, ts⟩
      · exact absurd h (splitOnComma_ne_nil rest)
      · have := ih
        rw [h] at this
        simp only [List.length_cons] at this ⊢
        simp [List.count_cons, hc]
        omega

/-- ASCII lowercasing neither creates nor destroys commas. -/
theorem goToLowerChar_comma_iff (c : Char) : goToLowerChar c = ',' ↔ c = ',' := by
  unfold goToLowerChar Char.toLower
  simp only
  split
  · next h =>
    constructor
    · intro he
      have h1 : (Char.ofNat (c.toNat + 32)).toNat = c.toNat + 32 :=
        toNat_ofNat_of_valid (by omega)
      have h2 : (Char.ofNat (c.toNat + 32)).toNat = (44 : Nat) := by
        rw [he]; rfl
      omega
    · intro he
      rw [he] at h
      exact absurd h (by decide)
  · exact Iff.rfl

theorem count_comma_toLower (s : Str) :
    (goToLower s).count ',' = s.count ',' := by
  induction s with
  | nil => rfl
  | cons c rest ih =>
    unfold goToLower at ih ⊢
    simp only [List.map_cons, List.count_cons, ih]
    by_cases hc : c = ','
    · subst hc
      simp [(goToLowerChar_comma_iff ',').mpr rfl]
    · have : ¬(goToLowerChar c = ',') := fun h => hc ((goToLowerChar_comma_iff c).mp h)
      simp [hc, this]

/-- C9: `parseSwap` fails exactly when the lowercased spec does not split on
`','` into exactly two parts, i.e. when the spec does not contain exactly
one comma; and a `parseFlags` failure makes `run` return that error before
any file precheck or processing, so no stats are ever produced or mutated. -/
theorem parseSwap_error_iff_and_aborts :
    (∀ spec : Str, (∃ e, parseSwap spec = .error e) ↔ spec.count ',' ≠ 1) ∧
    (∀ (swapSpecs removeSpecs : List Str) (html : Bool) (files : List goFile)
      (e : String), parseFlags swapSpecs = .error e →
      run swapSpecs removeSpecs html files = .error e) := by
  constructor
  · intro spec
    have hlen := splitOnComma_length (goToLower spec)
    have hcnt := count_comma_toLower spec
    unfold parseSwap
    rcases h : splitOnComma (goToLower spec) with _ | ⟨a, rest⟩
    · exact absurd h (splitOnComma_ne_nil _)
    · rcases rest with _ | ⟨b, rest2⟩
      · rw [h] at hlen
        simp only [List.length_cons, List.length_nil] at hlen
        constructor
        · intro _; omega
        · intro _; exact ⟨swapErrMsg, rfl⟩
      · rcases rest2 with _ | ⟨d, rest3⟩
        · rw [h] at hlen
          simp only [List.length_cons, List.length_nil] at hlen
          constructor
          · rintro ⟨e, he⟩; exact absurd he (by simp)
          · intro hne; omega
        · rw [h] at hlen
          simp only [List.length_cons, List.length_nil] at hlen
          constructor
          · intro _; omega
          · intro _; exact ⟨swapErrMsg, rfl⟩
  · intro swapSpecs removeSpecs html files e hpf
    unfold run
    rw [hpf]

/-- Witness for `parseSwap_error_iff_and_aborts`: the comma-less spec
`"thx"` is rejected, and `run` on it fails without touching any file. -/
theorem parseSwap_error_iff_and_aborts_witness :
    (∃ e, parseSwap (strOf "thx") = .error e) ∧
    run [strOf "thx"] [] false [⟨strOf "a.txt", [strOf "hi"]⟩]
      = .error swapErrMsg :=
  ⟨(parseSwap_error_iff_and_aborts.1 (strOf "thx")).mpr (by decide),
    parseSwap_error_iff_and_aborts.2 [strOf "thx"] [] false
      [⟨strOf "a.txt", [strOf "hi"]⟩] swapErrMsg rfl⟩

/-! ## C10: every token is non-empty lowercase ASCII alphanumeric -/

/-- Every word produced by `fields` is non-empty and consists of non-space
characters of the input. -/
theorem fields_mem {s t : Str} (ht : t ∈ fields s) :
    t ≠ [] ∧ ∀ c ∈ t, c ∈ s ∧ goIsSpace c = false := by
  induction s generalizing t with
  | nil => simp [fields] at ht
  | cons c rest ih =>
    rw [fields] at ht
    by_cases hc : goIsSpace c
    · rw [if_pos hc] at ht
      obtain ⟨hne, hall⟩ := ih ht
      exact ⟨hne, fun d hd =>
        ⟨List.mem_cons_of_mem c (hall d hd).1, (hall d hd).2⟩⟩
    · rw [if_neg hc] at ht
      rcases rest with _ | ⟨r, rs⟩
      · simp only [fieldsCons, List.mem_singleton] at ht
        subst ht
        refine ⟨by simp, fun d hd => ?_⟩
        simp only [List.mem_singleton] at hd
        subst hd
        exact ⟨List.mem_singleton_self d, by simpa using hc⟩
      · rcases hfs : fields (r :: rs) with _ | ⟨w, ws⟩
        · rw [hfs] at ht
          simp only [fieldsCons, List.mem_singleton] at ht
          subst ht
          refine ⟨by simp, fun d hd => ?_⟩
          simp only [List.mem_singleton] at hd
          subst hd
          exact ⟨List.mem_cons_self d _, by simpa using hc⟩
        · rw [hfs] at ht
          simp only [fieldsCons] at ht
          by_cases hr : goIsSpace r
          · rw [if_pos hr] at ht
            rcases List.mem_cons.mp ht with h1 | h2
            · subst h1
              refine ⟨by simp, fun d hd => ?_⟩
              simp only [List.mem_singleton] at hd
              subst hd
              exact ⟨List.mem_cons_self d _, by simpa using hc⟩
            · obtain ⟨hne, hall⟩ := ih (hfs ▸ h2)
              exact ⟨hne, fun d hd =>
                ⟨List.mem_cons_of_mem c (hall d hd).1, (hall d hd).2⟩⟩
          · rw [if_neg hr] at ht
            rcases List.mem_cons.mp ht with h1 | h2
            · subst h1
              refine ⟨by simp, fun d hd => ?_⟩
              rcases List.mem_cons.mp hd with rfl | hdw
              · exact ⟨List.mem_cons_self d _, by simpa using hc⟩
              · have hwmem : w ∈ fields (r :: rs) := by rw [hfs]; simp
                obtain ⟨-, hall⟩ := ih hwmem
                exact ⟨List.mem_cons_of_mem c (hall d hdw).1, (hall d hdw).2⟩
            · have htmem : t ∈ fields (r :: rs) := by rw [hfs]; simp [h2]
              obtain ⟨hne, hall⟩ := ih htmem
              exact ⟨hne, fun d hd =>
                ⟨List.mem_cons_of_mem c (hall d hd).1, (hall d hd).2⟩⟩

/-- Tag removal only deletes characters. -/
theorem removeHTMLTagsAux_subset :
    ∀ (fuel : Nat) (s : Str) (c : Char), c ∈ removeHTMLTagsAux fuel s → c ∈ s := by
  intro fuel
  induction fuel with
  | zero =>
    intro s c hc
    cases s with
    | nil => simp [removeHTMLTagsAux] at hc
    | cons d rest => exact hc
  | succ n ih =>
    intro s c hc
    cases s with
    | nil => simp [removeHTMLTagsAux] at hc
    | cons d rest =>
      rw [removeHTMLTagsAux] at hc
      rcases hmt : matchTagAt (d :: rest) with _ | rest2 <;> rw [hmt] at hc
      · rcases List.mem_cons.mp hc with rfl | h2
        · exact List.mem_cons_self c rest
        · exact List.mem_cons_of_mem d (ih rest c h2)
      · have h2 : c ∈ rest2 := ih rest2 c hc
        have hsfx : rest2 <:+ rest := matchTagAt_suffix hmt
        exact List.mem_cons_of_mem d (hsfx.subset h2)

/-- Trimming only deletes characters. -/
theorem trimSpace_subset {s : Str} {c : Char} (hc : c ∈ trimSpace s) : c ∈ s := by
  unfold trimSpace at hc
  rw [List.mem_reverse] at hc
  have h1 := List.dropWhile_subset _ hc
  rw [List.mem_reverse] at h1
  exact List.dropWhile_subset _ h1

/-- C10: every token returned by `normalize`, with HTML mode on or off, is a
non-empty string of lowercase ASCII letters (code points 97–122) and digits
(48–57) only — in particular it contains no whitespace, hyphen, angle
bracket, upper-case or non-ASCII character. -/
theorem normalize_tokens_charset (ln : Str) (mode : Bool) (t : Str)
    (ht : t ∈ (normalize ln mode).1) :
    t ≠ [] ∧ ∀ c ∈ t,
      (97 ≤ c.toNat ∧ c.toNat ≤ 122) ∨ (48 ≤ c.toNat ∧ c.toNat ≤ 57) := by
  unfold normalize at ht
  by_cases h0 : (trimSpace ln).length = 0
  · simp [h0] at ht
  · simp only [h0, if_false] at ht
    obtain ⟨hne, hall⟩ := fields_mem ht
    refine ⟨hne, fun c hc => ?_⟩
    obtain ⟨hmem, hnspace⟩ := hall c hc
    have hkeep : isKeepChar c = true := (List.mem_filter.mp hmem).2
    have hln3 := (List.mem_filter.mp hmem).1
    have hln2 : c ∈ trimSpace (goToLower (trimSpace ln)) := by
      by_cases hm : mode = true
      · rw [if_pos hm] at hln3
        unfold removeHTMLTags at hln3
        have := removeHTMLTagsAux_subset _ _ c hln3
        exact (List.mem_filter.mp this).1
      · rw [if_neg hm] at hln3
        exact hln3
    obtain ⟨d, -, hd⟩ := List.mem_map.mp (trimSpace_subset hln2)
    have hup := toLowerChar_not_upper d
    rw [hd] at hup
    simp only [isKeepChar, decide_eq_true_eq] at hkeep
    simp only [goIsSpace, decide_eq_false_iff_not] at hnspace
    omega

/-- Witness for `normalize_tokens_charset` at the first token of
`normalize("Hello, World!")`. -/
theorem normalize_tokens_charset_witness :
    (strOf "hello" ∈ (normalize (strOf "Hello, World!") false).1) ∧
    (strOf "hello" ≠ [] ∧ ∀ c ∈ strOf "hello",
      (97 ≤ c.toNat ∧ c.toNat ≤ 122) ∨ (48 ≤ c.toNat ∧ c.toNat ≤ 57)) :=
  ⟨by decide,
    normalize_tokens_charset (strOf "Hello, World!") false (strOf "hello")
      (by decide)⟩

/-! ## C8: ranked lists are sorted by count desc, key asc, then truncated -/

theorem strCmp3_swap : ∀ a b : Str, strCmp3 b a = -strCmp3 a b
  | [], [] => by simp [strCmp3]
  | [], _ :: _ => by simp [strCmp3]
  | _ :: _, [] => by simp [strCmp3]
  | a :: as, b :: bs => by
    unfold strCmp3
    rcases lt_trichotomy a b with h | h | h
    · simp [h, lt_asymm h]
    · subst h
      simp only [lt_irrefl, if_false]
      exact strCmp3_swap as bs
    · simp [h, lt_asymm h]

theorem strCmp3_eq_zero_iff : ∀ a b : Str, strCmp3 a b = 0 ↔ a = b
  | [], [] => by simp [strCmp3]
  | [], _ :: _ => by simp [strCmp3]
  | _ :: _, [] => by simp [strCmp3]
  | a :: as, b :: bs => by
    unfold strCmp3
    rcases lt_trichotomy a b with h | h | h
    · simp [h, ne_of_lt h]
    · subst h
      simp [lt_irrefl, strCmp3_eq_zero_iff as bs]
    · simp [h, lt_asymm h, (ne_of_lt h).symm]

theorem strCmp3_trans_nonpos :
    ∀ a b c : Str, strCmp3 a b ≤ 0 → strCmp3 b c ≤ 0 → strCmp3 a c ≤ 0
  | [], b, c => fun _ _ => by cases c <;> simp [strCmp3]
  | _ :: _, [], _ => fun hab _ => by simp [strCmp3] at hab
  | _ :: _, _ :: _, [] => fun _ hbc => by simp [strCmp3] at hbc
  | a :: as, b :: bs, c :: cs => fun hab hbc => by
    rcases lt_trichotomy a b with h | h | h
    · rcases lt_trichotomy b c with h2 | h2 | h2
      · have : a < c := lt_trans h h2
        simp [strCmp3, this]
      · subst h2; simp [strCmp3, h]
      · rw [strCmp3] at hbc
        simp [lt_asymm h2, h2] at hbc
    · subst h
      rcases lt_trichotomy a c with h2 | h2 | h2
      · simp [strCmp3, h2]
      · subst h2
        rw [strCmp3] at hab hbc ⊢
        simp only [lt_irrefl, if_false] at hab hbc ⊢
        exact strCmp3_trans_nonpos as bs cs hab hbc
      · rw [strCmp3] at hbc
        simp [lt_asymm h2, h2] at hbc
    · rw [strCmp3] at hab
      simp [lt_asymm h, h] at hab

theorem strCmp3_neg_iff_lex : ∀ a b : Str, strCmp3 a b < 0 ↔ List.Lex (· < ·) a b
  | [], [] => by
    simp only [strCmp3, lt_irrefl, false_iff]
    exact List.Lex.not_nil_right _ _
  | [], b :: bs => by
    simp only [strCmp3]
    exact iff_of_true (by omega) List.Lex.nil
  | a :: as, [] => by
    simp only [strCmp3]
    exact iff_of_false (by omega) (List.Lex.not_nil_right _ _)
  | a :: as, b :: bs => by
    unfold strCmp3
    rcases lt_trichotomy a b with h | h | h
    · simp only [h, if_true]
      exact iff_of_true (by omega) (List.Lex.rel h)
    · subst h
      simp only [lt_irrefl, if_false]
      rw [List.Lex.cons_iff]
      exact strCmp3_neg_iff_lex as bs
    · simp only [lt_asymm h, if_false, h, if_true]
      constructor
      · omega
      · intro hlex
        cases hlex with
        | rel hr => exact absurd hr (lt_asymm h)
        | cons _ => exact absurd h (lt_irrefl a)

theorem unitsCmp_swap (a b : unit) : unitsCmp b a = -unitsCmp a b := by
  unfold unitsCmp
  rcases lt_trichotomy a.n b.n with h | h | h
  · rw [if_pos (by omega), if_pos (by omega)]; omega
  · rw [if_neg (by omega), if_neg (by omega), strCmp3_swap]
  · rw [if_pos (by omega), if_pos (by omega)]; omega

/-- The comparator order, unfolded. -/
theorem unitsLE_iff (a b : unit) :
    unitsLE a b ↔ b.n < a.n ∨ (b.n = a.n ∧ strCmp3 a.v b.v ≤ 0) := by
  unfold unitsLE unitsCmp
  split
  · next h =>
    constructor
    · intro hle; left; omega
    · rintro (h2 | ⟨h2, -⟩) <;> omega
  · next h =>
    constructor
    · intro hle; right; exact ⟨by omega, hle⟩
    · rintro (h2 | ⟨-, h2⟩)
      · omega
      · exact h2

instance : IsTotal unit unitsLE :=
  ⟨fun a b => by
    rcases le_or_lt (unitsCmp a b) 0 with h | h
    · exact Or.inl h
    · refine Or.inr ?_
      unfold unitsLE
      rw [unitsCmp_swap]
      omega⟩

instance : IsTrans unit unitsLE :=
  ⟨fun a b c hab hbc => by
    rcases (unitsLE_iff a b).mp hab with h1 | ⟨h1, h1s⟩ <;>
      rcases (unitsLE_iff b c).mp hbc with h2 | ⟨h2, h2s⟩
    · exact (unitsLE_iff a c).mpr (Or.inl (by omega))
    · exact (unitsLE_iff a c).mpr (Or.inl (by omega))
    · exact (unitsLE_iff a c).mpr (Or.inl (by omega))
    · exact (unitsLE_iff a c).mpr
        (Or.inr ⟨by omega, strCmp3_trans_nonpos a.v b.v c.v h1s h2s⟩)⟩

/-- The strict ranking order of the report: strictly greater count first,
ties by strictly lexicographically smaller key. -/
def rankLT (a b : unit) : Prop :=
  b.n < a.n ∨ (a.n = b.n ∧ List.Lex (· < ·) a.v b.v)

/-- Comparator-nonpositive plus distinct keys gives the strict ranking. -/
theorem unitsLE_ne_rankLT {a b : unit} (hle : unitsLE a b) (hne : a.v ≠ b.v) :
    rankLT a b := by
  rcases (unitsLE_iff a b).mp hle with h | ⟨h1, h2⟩
  · exact Or.inl h
  · refine Or.inr ⟨h1.symm, ?_⟩
    have h0 : strCmp3 a.v b.v ≠ 0 := fun h0 => hne ((strCmp3_eq_zero_iff _ _).mp h0)
    exact (strCmp3_neg_iff_lex _ _).mp (by omega)

/-- C8: for any entry list with pairwise-distinct keys (as produced by
ranging over one of the four view maps), `toUnitSlice` returns a permutation
of the entries that is strictly sorted by descending count with ties broken
by ascending lexicographic key order, and `print`'s truncation keeps exactly
the first `top` entries of the sorted list when `top > 0` and the whole list
when `top = 0`. -/
theorem toUnitSlice_ranked (entries : List unit)
    (hkeys : (entries.map unit.v).Nodup) (top : Nat) :
    (toUnitSlice entries).Perm entries ∧
    List.Pairwise rankLT (toUnitSlice entries) ∧
    (0 < top → truncTop top (toUnitSlice entries) = (toUnitSlice entries).take top) ∧
    truncTop 0 (toUnitSlice entries) = toUnitSlice entries := by
  have hperm : (toUnitSlice entries).Perm entries := List.perm_insertionSort _ _
  refine ⟨hperm, ?_, ?_, ?_⟩
  · have hsorted : List.Sorted unitsLE (toUnitSlice entries) :=
      List.sorted_insertionSort _ _
    have hnodup : ((toUnitSlice entries).map unit.v).Nodup :=
      ((hperm.map unit.v).nodup_iff).mpr hkeys
    have hpw_ne : List.Pairwise (fun a b : unit => a.v ≠ b.v) (toUnitSlice entries) :=
      List.pairwise_map.mp hnodup
    exact (hsorted.and hpw_ne).imp fun h => unitsLE_ne_rankLT h.1 h.2
  · intro htop
    unfold truncTop
    split
    · rfl
    · next h =>
      have hlen : (toUnitSlice entries).length ≤ top := by
        rcases Nat.lt_or_ge top (toUnitSlice entries).length with h2 | h2
        · exact absurd ⟨htop, h2⟩ h
        · exact h2
      exact (List.take_of_length_le hlen).symm
  · unfold truncTop
    simp

/-- Witness for `toUnitSlice_ranked` at three concrete entries with a tie. -/
theorem toUnitSlice_ranked_witness :
    (([⟨strOf "b", 2⟩, ⟨strOf "a", 5⟩, ⟨strOf "c", 2⟩] : List unit).map unit.v).Nodup ∧
    ((toUnitSlice [⟨strOf "b", 2⟩, ⟨strOf "a", 5⟩, ⟨strOf "c", 2⟩]).Perm
        [⟨strOf "b", 2⟩, ⟨strOf "a", 5⟩, ⟨strOf "c", 2⟩] ∧
      List.Pairwise rankLT (toUnitSlice [⟨strOf "b", 2⟩, ⟨strOf "a", 5⟩, ⟨strOf "c", 2⟩]) ∧
      (0 < 2 → truncTop 2 (toUnitSlice [⟨strOf "b", 2⟩, ⟨strOf "a", 5⟩, ⟨strOf "c", 2⟩])
        = (toUnitSlice [⟨strOf "b", 2⟩, ⟨strOf "a", 5⟩, ⟨strOf "c", 2⟩]).take 2) ∧
      truncTop 0 (toUnitSlice [⟨strOf "b", 2⟩, ⟨strOf "a", 5⟩, ⟨strOf "c", 2⟩])
        = toUnitSlice [⟨strOf "b", 2⟩, ⟨strOf "a", 5⟩, ⟨strOf "c", 2⟩]) :=
  ⟨by decide,
    toUnitSlice_ranked [⟨strOf "b", 2⟩, ⟨strOf "a", 5⟩, ⟨strOf "c", 2⟩] (by decide) 2⟩

end GoCount
